import Mathlib

/-!
Shallow embedding of the `embedded_lang` crate (src/language.rs and
src/language_set.rs), together with theorems checking the specification's
claims about it.

Modelling conventions:
* Rust `String` / `&str` values are modelled as `List Char` (`Str`); a Rust
  string literal `"ab"` is written `"ab".data`.
* `std::collections::HashMap<String, V>` is modelled as an association list
  `List (Str × V)` looked up by first match (`hmLookup`); the HashMap key
  uniqueness invariant is carried explicitly where a proof needs it.
  `HashMap::insert` (overwrite semantics) is `hmInsert`.
* Methods taking `&mut self` and returning `T` are modelled as functions
  returning `T × State` (the bool result paired with the updated state).
* Byte vectors `Vec<u8>` are modelled as `List Nat`; the `attachments`
  side-table of `Language` (an opaque `serde_json::Value` store) is not
  modelled since no claim mentions it.
-/

namespace EmbeddedLang

/-- Rust string contents, as a list of characters. -/
abbrev Str := List Char

/-- The reserved path separator: the crate splits and joins on `"\\"`,
a single backslash character. -/
def sep : Char := '\\'

/-- Model of Rust `name.split("\\")` (from `Language::get`): splitting a
string on a one-character separator. Like Rust's `split`, it always yields
at least one segment; splitting the empty string yields `[[]]`. -/
def splitSepAux : Str → Str → List Str
  | [], acc => [acc]
  | c :: rest, acc =>
    if c = sep then acc :: splitSepAux rest [] else splitSepAux rest (acc ++ [c])

/-- Split a key on the path separator (Rust `name.split("\\")`). -/
def splitSep (s : Str) : List Str := splitSepAux s []

/-- Join path segments with the separator; the inverse of `splitSep` for
separator-free segments. Used to state claims about flat keys. -/
def joinPath : List Str → Str
  | [] => []
  | [p] => p
  | p :: ps => p ++ sep :: joinPath ps

/-- Model of `HashMap::get`: first-match lookup in an association list. -/
def hmLookup {α : Type} : List (Str × α) → Str → Option α
  | [], _ => none
  | (k2, v) :: rest, k => if k2 = k then some v else hmLookup rest k

/-- Model of `HashMap::insert` / collecting a key-value iterator: insert
with overwrite, preserving key uniqueness. -/
def hmInsert {α : Type} (k : Str) (v : α) : List (Str × α) → List (Str × α)
  | [] => [(k, v)]
  | (k2, v2) :: rest =>
    if k2 = k then (k, v) :: rest else (k2, v2) :: hmInsert k v rest

/-- Model of `HashMap::contains_key`. -/
def containsKey {α : Type} (m : List (Str × α)) (k : Str) : Bool :=
  (hmLookup m k).isSome

/-- Model of `LanguageStringObject` (src/language.rs): a string endpoint
(`Direct`) or a named subtree (`Category`, a `HashMap<String, _>`). -/
inductive LanguageStringObject where
  | Direct : Str → LanguageStringObject
  | Category : List (Str × LanguageStringObject) → LanguageStringObject

instance : Inhabited LanguageStringObject := ⟨.Direct []⟩

namespace LanguageStringObject

/-- Flat key formed for a child key `k` under an optional `root_key`:
Rust's `format!("{}\\{}", root, k)` when a root is present, `k` alone
otherwise (from `flatten_all`). -/
def mkKey (root : Option Str) (k : Str) : Str :=
  match root with
  | some r => r ++ sep :: k
  | none => k

/-- Model of `LanguageStringObject::flatten_all`: flatten every entry of a
category map, prefixing keys with `root_key` when present. The Rust code
expresses this as mutual recursion with `flatten`; here the one-entry step
of `flatten` is inlined (and recovered below as the `flatten` wrapper),
and the `HashMap` union (`extend`) is list concatenation. -/
def flatten_all (c : List (Str × LanguageStringObject)) (root : Option Str) :
    List (Str × Str) :=
  match c with
  | [] => []
  | (k, o) :: rest =>
    (match o with
     | Direct s => [(mkKey root k, s)]
     | Category c2 => flatten_all c2 (some (mkKey root k))) ++ flatten_all rest root

/-- Model of `LanguageStringObject::flatten`: a `Direct` yields the single
binding `own_key ↦ value`; a `Category` flattens its children prefixed by
`own_key`. -/
def flatten (o : LanguageStringObject) (own_key : Str) : List (Str × Str) :=
  match o with
  | Direct s => [(own_key, s)]
  | Category c => flatten_all c (some own_key)

/-- Well-formedness of a string-table map, the `HashMap` invariant plus the
spec's "well-formed tree" reading: at every level keys are pairwise
distinct (automatic for a `HashMap`) and no key contains the reserved
separator character (the spec's accepted edge case when violated). -/
def wfMap (c : List (Str × LanguageStringObject)) : Bool :=
  match c with
  | [] => true
  | (k, o) :: rest =>
    decide (sep ∉ k) &&
    decide (∀ e ∈ rest, e.1 ≠ k) &&
    (match o with
     | Direct _ => true
     | Category c2 => wfMap c2) &&
    wfMap rest

/-- Well-formedness of a single node: a `Direct` is always well-formed, a
`Category` is well-formed when its map is. -/
def wfObj (o : LanguageStringObject) : Bool :=
  match o with
  | Direct _ => true
  | Category c => wfMap c

end LanguageStringObject

open LanguageStringObject

/-- Model of the `Language` struct (src/language.rs). The `attachments`
field is omitted (opaque JSON values, no claim concerns it). -/
structure Language where
  name : Str
  short_name : Str
  strings : List (Str × LanguageStringObject)
  resources : List (Str × List Nat)

namespace Language

/-- The traversal loop of `Language::get`: `pos` is the current optional
position, the list holds the remaining path segments. Mirrors the Rust
loop: a missing position is a miss; a `Direct` reached with segments
remaining returns its string immediately (the mid-loop `return Some(s)`);
a `Category` steps into the child named by the next segment; after the last
segment a `Direct` is a hit and a `Category` is a miss. -/
def getPath : Option LanguageStringObject → List Str → Option Str
  | none, _ => none
  | some (Direct s), [] => some s
  | some (Category _), [] => none
  | some (Direct s), _ :: _ => some s
  | some (Category c), item :: rest => getPath (hmLookup c item) rest

/-- Model of `Language::get`: split the key on the separator, walk the
first segment into the top-level map, then run the traversal loop. The
empty-path arm mirrors the Rust `path.peek().is_none()` check (which never
fires, since `split` always yields at least one segment). -/
def get (l : Language) (name : Str) : Option Str :=
  match splitSep name with
  | [] => none
  | first :: rest => getPath (hmLookup l.strings first) rest

/-- Model of `Language::strings()`: the flattened view of the whole table,
`flatten_all` with no root prefix. Named `strings_flat` because the Lean
structure field `strings` keeps the Rust field's name. -/
def strings_flat (l : Language) : List (Str × Str) :=
  flatten_all l.strings none

end Language

/-- Position reached from a map by a non-empty path of segments, stepping
through `Category` nodes only: the node named by the path, if every proper
prefix of the path lands on a `Category`. Vocabulary for stating claims
about "the path reaches such-and-such node"; an empty path reaches
nothing. -/
def nodeAtM : List (Str × LanguageStringObject) → List Str → Option LanguageStringObject
  | _, [] => none
  | c, [k] => hmLookup c k
  | c, k :: ps =>
    match hmLookup c k with
    | some (Category c2) => nodeAtM c2 ps
    | _ => none

/-- Model of the `LanguageSet` struct (src/language_set.rs). -/
structure LanguageSet where
  current : Str
  fallback : Str
  languages : List (Str × Language)

namespace LanguageSet

/-- Model of `LanguageSet::new`: current and fallback both set to the given
fallback code; the languages indexed by short code by collecting
`(short_name, language)` pairs into a `HashMap` (later duplicates
overwrite earlier ones). -/
def new (fallback_language : Str) (languages : List Language) : LanguageSet :=
  { current := fallback_language
    fallback := fallback_language
    languages := languages.foldl (fun m l => hmInsert l.short_name l m) [] }

/-- Model of `LanguageSet::fallback_language()`. -/
def fallback_language (s : LanguageSet) : Option Language :=
  hmLookup s.languages s.fallback

/-- Model of `LanguageSet::current_language()`. -/
def current_language (s : LanguageSet) : Option Language :=
  hmLookup s.languages s.current

/-- Model of `LanguageSet::set_fallback_language` (returns the Rust bool
result paired with the updated state). -/
def set_fallback_language (s : LanguageSet) (language : Str) : Bool × LanguageSet :=
  if containsKey s.languages language then
    (true, { s with fallback := language })
  else
    (false, s)

/-- Model of `LanguageSet::set_language`. -/
def set_language (s : LanguageSet) (language : Str) : Bool × LanguageSet :=
  if containsKey s.languages language then
    (true, { s with current := language })
  else
    (false, s)

/-- The per-language report entry of `verify`: the language's flattened
keys minus the fallback's flattened key set (the Rust
`HashSet::difference`, as a filtered key list). -/
def diffNotIn (fbKeys : List Str) (l : Language) : List Str :=
  ((l.strings_flat).map Prod.fst).filter (fun k => decide (k ∉ fbKeys))

/-- Model of `LanguageSet::verify`: if the fallback language resolves, map
every registered language to its keys that are absent from the fallback's
flattened key set; otherwise the empty report. -/
def verify (s : LanguageSet) : List (Str × List Str) :=
  match s.fallback_language with
  | some fb =>
    s.languages.map (fun e => (e.1, diffNotIn ((fb.strings_flat).map Prod.fst) e.2))
  | none => []

/-- Model of `LanguageSet::get`: two-tier lookup, current language first,
fallback language on a miss (the Rust `and_then ... or ...` chain). -/
def get (s : LanguageSet) (name : Str) : Option Str :=
  match s.current_language.bind (fun l => l.get name) with
  | some v => some v
  | none => s.fallback_language.bind (fun l => l.get name)

/-- Model of `impl Index<&str> for LanguageSet`: `get` with a miss mapped
to the empty string (`unwrap_or_default`). -/
def index (s : LanguageSet) (name : Str) : Str :=
  (s.get name).getD []

end LanguageSet

/-- The last element of `langs` whose short code is `c`, if any: the value
a `HashMap` collected from `(short_name, language)` pairs associates to
`c`, since later insertions overwrite earlier ones. -/
def lastWithCode (langs : List Language) (c : Str) : Option Language :=
  match langs with
  | [] => none
  | l :: rest =>
    match lastWithCode rest c with
    | some r => some r
    | none => if l.short_name = c then some l else none

/-- Suffixes that can follow a complete path segment inside a flat key:
nothing, or a separator followed by the rest of the key. -/
def SepHead (u : Str) : Prop := u = [] ∨ ∃ t, u = sep :: t

/-! ### Concrete instances used to witness the theorems below, shaped after
the crate's bundled `examples/en.lang.json` / `examples/fr.lang.json` -/

/-- Concrete English-like language with a nested category. -/
def exLangEn : Language :=
  { name := "English".data
    short_name := "en".data
    strings := [("tree".data, Direct "tree".data),
      ("category".data, Category
        [("category2".data, Category [("foo".data, Direct "bar".data)])]),
      ("mustard".data, Direct "mustard".data)]
    resources := [] }

/-- Concrete French-like language containing only a top-level leaf. -/
def exLangFr : Language :=
  { name := "French".data
    short_name := "fr".data
    strings := [("tree".data, Direct "arbre".data)]
    resources := [] }

/-- A registry with current French and fallback English. -/
def exSet : LanguageSet :=
  { current := "fr".data
    fallback := "en".data
    languages := [("en".data, exLangEn), ("fr".data, exLangFr)] }

/-- A registry whose fallback code resolves to no registered language. -/
def exSetNoFallback : LanguageSet :=
  { current := "fr".data
    fallback := "zz".data
    languages := [("fr".data, exLangFr)] }

/-- A language whose top-level table binds the empty-string key. -/
def exLangEmptyKey : Language :=
  { name := "E".data
    short_name := "e".data
    strings := [([], Direct "x".data)]
    resources := [] }

/-- A language with a separator character inside a top-level key, colliding
with a nested path: both name the flat key `a\b`. -/
def exLangSepKey : Language :=
  { name := "E".data
    short_name := "e".data
    strings := [("a\\b".data, Category []),
      ("a".data, Category [("b".data, Direct "x".data)])]
    resources := [] }

/-- A language whose top-level table binds `a` to an empty branch. -/
def exLangEmptyBranch : Language :=
  { name := "E".data
    short_name := "e".data
    strings := [("a".data, Category []), ("tree".data, Direct "x".data)]
    resources := [] }

theorem nodeAtM_nil (c : List (Str × LanguageStringObject)) : nodeAtM c [] = none := rfl

theorem nodeAtM_one (c : List (Str × LanguageStringObject)) (k : Str) :
    nodeAtM c [k] = hmLookup c k := rfl

theorem nodeAtM_cons (c : List (Str × LanguageStringObject)) (k q : Str)
    (qs : List Str) :
    nodeAtM c (k :: q :: qs) =
      match hmLookup c k with
      | some (Category c2) => nodeAtM c2 (q :: qs)
      | _ => none := rfl

/-! ### Lemmas about splitting and joining on the separator -/

theorem splitSepAux_sepFree (p : Str) (acc : Str) (h : sep ∉ p) :
    splitSepAux p acc = [acc ++ p] := by
  induction p generalizing acc with
  | nil => simp [splitSepAux]
  | cons c rest ih =>
    have hc : ¬ c = sep := fun e => h (e ▸ List.mem_cons_self c rest)
    rw [splitSepAux, if_neg hc, ih _ (fun hm => h (List.mem_cons_of_mem _ hm))]
    simp

theorem splitSepAux_sep_append (p t acc : Str) (h : sep ∉ p) :
    splitSepAux (p ++ sep :: t) acc = (acc ++ p) :: splitSepAux t [] := by
  induction p generalizing acc with
  | nil => simp [splitSepAux]
  | cons c rest ih =>
    have hc : ¬ c = sep := fun e => h (e ▸ List.mem_cons_self c rest)
    rw [List.cons_append, splitSepAux, if_neg hc,
      ih _ (fun hm => h (List.mem_cons_of_mem _ hm))]
    simp

theorem splitSep_sepFree (p : Str) (h : sep ∉ p) : splitSep p = [p] := by
  rw [splitSep, splitSepAux_sepFree p [] h, List.nil_append]

theorem splitSep_joinPath (P : List Str) (hne : P ≠ [])
    (h : ∀ p ∈ P, sep ∉ p) : splitSep (joinPath P) = P := by
  induction P with
  | nil => exact absurd rfl hne
  | cons p ps ih =>
    cases ps with
    | nil => exact splitSep_sepFree p (h p (List.mem_cons_self p []))
    | cons q qs =>
      have hj : joinPath (p :: q :: qs) = p ++ sep :: joinPath (q :: qs) := rfl
      rw [hj, splitSep, splitSepAux_sep_append p _ [] (h p (List.mem_cons_self p _)),
        List.nil_append]
      have := ih (by simp) (fun x hx => h x (List.mem_cons_of_mem _ hx))
      rw [splitSep] at this
      rw [this]

/-! ### Lemmas about association-list lookup -/

theorem hmLookup_append_some {α : Type} {A B : List (Str × α)} {k : Str} {v : α}
    (h : hmLookup A k = some v) : hmLookup (A ++ B) k = some v := by
  induction A with
  | nil => simp [hmLookup] at h
  | cons e rest ih =>
    rw [hmLookup] at h
    rw [List.cons_append, hmLookup]
    by_cases he : e.1 = k
    · simpa [he] using h
    · rw [if_neg he] at h ⊢
      exact ih h

theorem hmLookup_append_none {α : Type} {A : List (Str × α)} (B : List (Str × α))
    {k : Str} (h : hmLookup A k = none) : hmLookup (A ++ B) k = hmLookup B k := by
  induction A with
  | nil => simp
  | cons e rest ih =>
    rw [hmLookup] at h
    rw [List.cons_append, hmLookup]
    by_cases he : e.1 = k
    · simp [he] at h
    · rw [if_neg he] at h ⊢
      exact ih h

theorem hmLookup_mem {α : Type} {m : List (Str × α)} {k : Str} {v : α}
    (h : hmLookup m k = some v) : (k, v) ∈ m := by
  induction m with
  | nil => simp [hmLookup] at h
  | cons e rest ih =>
    rw [hmLookup] at h
    by_cases he : e.1 = k
    · rw [if_pos he] at h
      obtain ⟨k2, v2⟩ := e
      obtain rfl : v2 = v := by simpa using h
      obtain rfl : k2 = k := he
      exact List.mem_cons_self _ _
    · rw [if_neg he] at h
      exact List.mem_cons_of_mem _ (ih h)

theorem hmLookup_insert {α : Type} (m : List (Str × α)) (k c : Str) (v : α) :
    hmLookup (hmInsert k v m) c = if k = c then some v else hmLookup m c := by
  induction m with
  | nil => simp [hmInsert, hmLookup]
  | cons e rest ih =>
    obtain ⟨k2, v2⟩ := e
    rw [hmInsert]
    by_cases he : k2 = k
    · subst he
      by_cases hc : k2 = c
      · simp [hc, hmLookup]
      · simp [hc, hmLookup, ih]
    · rw [if_neg he, hmLookup, hmLookup]
      by_cases hc : k2 = c
      · have : ¬ k = c := fun e2 => he (by rw [e2, hc])
        simp [hc, this]
      · rw [if_neg hc, if_neg hc, ih]

theorem hmLookup_map_snd {β γ : Type} (m : List (Str × β)) (g : β → γ) (k : Str) :
    hmLookup (m.map (fun e => (e.1, g e.2))) k = (hmLookup m k).map g := by
  induction m with
  | nil => simp [hmLookup]
  | cons e rest ih =>
    rw [List.map_cons, hmLookup, hmLookup]
    by_cases he : e.1 = k
    · simp [he]
    · simp only [he, if_neg, if_false]
      exact ih

theorem hmLookup_foldl_insert (langs : List Language) (m : List (Str × Language))
    (c : Str) :
    hmLookup (langs.foldl (fun m2 l => hmInsert l.short_name l m2) m) c =
      match lastWithCode langs c with
      | some r => some r
      | none => hmLookup m c := by
  induction langs generalizing m with
  | nil => simp [lastWithCode]
  | cons l rest ih =>
    rw [List.foldl_cons, ih, lastWithCode]
    cases lastWithCode rest c with
    | some r => rfl
    | none =>
      rw [hmLookup_insert]
      by_cases hc : l.short_name = c
      · simp [hc]
      · simp [hc]

/-! ### Lemmas about well-formed string tables -/

theorem wfMap_cons {k : Str} {o : LanguageStringObject}
    {rest : List (Str × LanguageStringObject)}
    (h : wfMap ((k, o) :: rest) = true) :
    sep ∉ k ∧ (∀ e ∈ rest, e.1 ≠ k) ∧ wfObj o = true ∧ wfMap rest = true := by
  cases o with
  | Direct s =>
    rw [wfMap] at h
    simp only [Bool.and_eq_true, decide_eq_true_eq] at h
    exact ⟨h.1.1.1, h.1.1.2, rfl, h.2⟩
  | Category c2 =>
    rw [wfMap] at h
    simp only [Bool.and_eq_true, decide_eq_true_eq] at h
    exact ⟨h.1.1.1, h.1.1.2, by simpa [wfObj] using h.1.2, h.2⟩

theorem wf_mem_sepFree {c : List (Str × LanguageStringObject)} {k : Str}
    {o : LanguageStringObject} (hwf : wfMap c = true) (hm : (k, o) ∈ c) :
    sep ∉ k := by
  induction c with
  | nil => simp at hm
  | cons e rest ih =>
    obtain ⟨k2, o2⟩ := e
    obtain ⟨h1, _, _, h4⟩ := wfMap_cons hwf
    rcases List.mem_cons.1 hm with he | hm2
    · simp only [Prod.mk.injEq] at he
      obtain ⟨rfl, rfl⟩ := he
      exact h1
    · exact ih h4 hm2

theorem wf_mem_lookup {c : List (Str × LanguageStringObject)} {k : Str}
    {o : LanguageStringObject} (hwf : wfMap c = true) (hm : (k, o) ∈ c) :
    hmLookup c k = some o := by
  induction c with
  | nil => simp at hm
  | cons e rest ih =>
    obtain ⟨k2, o2⟩ := e
    obtain ⟨_, h2, _, h4⟩ := wfMap_cons hwf
    rcases List.mem_cons.1 hm with he | hm2
    · simp only [Prod.mk.injEq] at he
      obtain ⟨rfl, rfl⟩ := he
      simp [hmLookup]
    · have hne : k ≠ k2 := fun he2 => (h2 (k, o) hm2) (by simpa using he2)
      rw [hmLookup, if_neg (fun he2 => hne he2.symm)]
      exact ih h4 hm2

theorem wf_lookup_obj {c : List (Str × LanguageStringObject)} {k : Str}
    {o : LanguageStringObject} (hwf : wfMap c = true)
    (hl : hmLookup c k = some o) : wfObj o = true := by
  induction c with
  | nil => simp [hmLookup] at hl
  | cons e rest ih =>
    obtain ⟨k2, o2⟩ := e
    obtain ⟨_, _, h3, h4⟩ := wfMap_cons hwf
    rw [hmLookup] at hl
    by_cases he : k2 = k
    · rw [if_pos he] at hl
      obtain rfl : o2 = o := by simpa using hl
      exact h3
    · rw [if_neg he] at hl
      exact ih h4 hl

/-! ### Flat keys are segment-aligned: shape lemmas for `flatten_all` -/

theorem seg_eq {a b u v : Str} (ha : sep ∉ a) (hb : sep ∉ b)
    (hu : SepHead u) (hv : SepHead v) (h : a ++ u = b ++ v) : a = b := by
  induction a generalizing b with
  | nil =>
    cases b with
    | nil => rfl
    | cons d bs =>
      exfalso
      rcases hu with rfl | ⟨t, rfl⟩
      · simp at h
      · rw [List.nil_append, List.cons_append, List.cons.injEq] at h
        exact hb (h.1 ▸ List.mem_cons_self d bs)
  | cons c as ih =>
    cases b with
    | nil =>
      exfalso
      rcases hv with rfl | ⟨t, rfl⟩
      · simp at h
      · rw [List.nil_append, List.cons_append, List.cons.injEq] at h
        exact ha (h.1 ▸ List.mem_cons_self c as)
    | cons d bs =>
      rw [List.cons_append, List.cons_append, List.cons.injEq] at h
      obtain ⟨rfl, h2⟩ := h
      rw [ih (fun hm => ha (List.mem_cons_of_mem _ hm))
        (fun hm => hb (List.mem_cons_of_mem _ hm)) h2]

theorem mkKey_append (root : Option Str) (x y : Str) :
    mkKey root (x ++ y) = mkKey root x ++ y := by
  cases root <;> simp [mkKey]

theorem mkKey_cancel {root : Option Str} {a b u v : Str}
    (h : mkKey root a ++ u = mkKey root b ++ v) : a ++ u = b ++ v := by
  cases root with
  | none => simpa [mkKey] using h
  | some r =>
    simp only [mkKey, List.cons_append, List.append_assoc] at h
    have h2 := List.append_cancel_left h
    simpa using h2

theorem flatten_all_cons (k : Str) (o : LanguageStringObject)
    (rest : List (Str × LanguageStringObject)) (root : Option Str) :
    flatten_all ((k, o) :: rest) root =
      flatten o (mkKey root k) ++ flatten_all rest root := by
  cases o <;> rw [flatten_all, flatten]

theorem flatten_all_keyShape {c : List (Str × LanguageStringObject)}
    {root : Option Str} {fk : Str}
    (h : fk ∈ (flatten_all c root).map Prod.fst) :
    ∃ k u, k ∈ c.map Prod.fst ∧ SepHead u ∧ fk = mkKey root k ++ u := by
  induction c, root using flatten_all.induct with
  | case1 root => simp [flatten_all] at h
  | case2 root k o rest ih2 ih1 =>
    rw [flatten_all_cons, List.map_append, List.mem_append] at h
    rcases h with hbr | hrest
    · cases o with
      | Direct s =>
        rw [flatten] at hbr
        obtain rfl : fk = mkKey root k := by simpa using hbr
        exact ⟨k, [], by simp, Or.inl rfl, by simp⟩
      | Category c2 =>
        rw [flatten] at hbr
        obtain ⟨k2, u2, _, _, rfl⟩ := ih2 hbr
        refine ⟨k, sep :: (k2 ++ u2), by simp, Or.inr ⟨_, rfl⟩, ?_⟩
        simp [mkKey]
    · obtain ⟨k2, u2, hmem, hsh, rfl⟩ := ih1 hrest
      exact ⟨k2, u2, by simp [hmem], hsh, rfl⟩

theorem flatten_all_entry {c : List (Str × LanguageStringObject)}
    {root : Option Str} {fk : Str}
    (h : fk ∈ (flatten_all c root).map Prod.fst) :
    ∃ k o, (k, o) ∈ c ∧ fk ∈ (flatten o (mkKey root k)).map Prod.fst := by
  induction c with
  | nil => simp [flatten_all] at h
  | cons e rest ih =>
    obtain ⟨k, o⟩ := e
    rw [flatten_all_cons, List.map_append, List.mem_append] at h
    rcases h with hbr | hrest
    · exact ⟨k, o, List.mem_cons_self _ _, hbr⟩
    · obtain ⟨k2, o2, hmem, hfk⟩ := ih hrest
      exact ⟨k2, o2, List.mem_cons_of_mem _ hmem, hfk⟩

theorem flatten_keyShape {o : LanguageStringObject} {own fk : Str}
    (h : fk ∈ (flatten o own).map Prod.fst) :
    ∃ u, SepHead u ∧ fk = own ++ u := by
  cases o with
  | Direct s =>
    rw [flatten] at h
    obtain rfl : fk = own := by simpa using h
    exact ⟨[], Or.inl rfl, by simp⟩
  | Category c =>
    rw [flatten] at h
    obtain ⟨k2, u2, _, _, rfl⟩ := flatten_all_keyShape h
    exact ⟨sep :: (k2 ++ u2), Or.inr ⟨_, rfl⟩, by simp [mkKey]⟩

/-! ### Lookup in the flattened map finds the entry's own branch -/

theorem flatten_all_lookup_of_entry {c : List (Str × LanguageStringObject)}
    {root : Option Str} {k : Str} {o : LanguageStringObject} {u : Str} {v : Str}
    (hwf : wfMap c = true) (hl : hmLookup c k = some o) (hu : SepHead u)
    (hv : hmLookup (flatten o (mkKey root k)) (mkKey root k ++ u) = some v) :
    hmLookup (flatten_all c root) (mkKey root k ++ u) = some v := by
  induction c with
  | nil => simp [hmLookup] at hl
  | cons e rest ih =>
    obtain ⟨k2, o2⟩ := e
    obtain ⟨hsep2, _, _, hwfrest⟩ := wfMap_cons hwf
    rw [flatten_all_cons]
    rw [hmLookup] at hl
    by_cases hk : k2 = k
    · subst hk
      rw [if_pos rfl] at hl
      obtain rfl : o2 = o := by simpa using hl
      exact hmLookup_append_some hv
    · rw [if_neg hk] at hl
      have hksep : sep ∉ k := wf_mem_sepFree hwfrest (hmLookup_mem hl)
      have hmiss : hmLookup (flatten o2 (mkKey root k2)) (mkKey root k ++ u) = none := by
        cases hcase : hmLookup (flatten o2 (mkKey root k2)) (mkKey root k ++ u) with
        | none => rfl
        | some w =>
          exfalso
          have hmem : (mkKey root k ++ u) ∈ (flatten o2 (mkKey root k2)).map Prod.fst :=
            List.mem_map_of_mem Prod.fst (hmLookup_mem hcase)
          obtain ⟨u2, hu2, heq⟩ := flatten_keyShape hmem
          exact hk (seg_eq hsep2 hksep hu2 hu (mkKey_cancel heq.symm))
      rw [hmLookup_append_none _ hmiss]
      exact ih hwfrest hl

/-- A leaf reached by a non-empty path `P` through a well-formed table
appears in the flattened map under the joined flat key (stated for any
root prefix to make the induction go through). -/
theorem flatten_all_lookup_joinPath {P : List Str}
    {c : List (Str × LanguageStringObject)} {r : Option Str} {s : Str}
    (hwf : wfMap c = true) (hn : nodeAtM c P = some (Direct s)) :
    hmLookup (flatten_all c r) (mkKey r (joinPath P)) = some s := by
  induction P generalizing c r with
  | nil => simp [nodeAtM] at hn
  | cons k ps ih =>
    cases ps with
    | nil =>
      rw [nodeAtM_one] at hn
      have hv : hmLookup (flatten (Direct s) (mkKey r k)) (mkKey r k ++ []) =
          some s := by
        simp [flatten, hmLookup]
      have hmain := flatten_all_lookup_of_entry hwf hn (Or.inl rfl) hv
      simpa [joinPath] using hmain
    | cons q qs =>
      cases hl : hmLookup c k with
      | none => rw [nodeAtM_cons, hl] at hn; exact Option.noConfusion hn
      | some o =>
        cases o with
        | Direct s2 => rw [nodeAtM_cons, hl] at hn; exact Option.noConfusion hn
        | Category c2 =>
          rw [nodeAtM_cons, hl] at hn
          have hwf2 : wfMap c2 = true := by
            simpa [wfObj] using wf_lookup_obj hwf hl
          have hstep := ih (c := c2) (r := some (mkKey r k)) hwf2 hn
          have hkey : mkKey (some (mkKey r k)) (joinPath (q :: qs)) =
              mkKey r k ++ sep :: joinPath (q :: qs) := by
            simp [mkKey]
          rw [hkey] at hstep
          have hv : hmLookup (flatten (Category c2) (mkKey r k))
              (mkKey r k ++ sep :: joinPath (q :: qs)) = some s := by
            rw [flatten]; exact hstep
          have hmain := flatten_all_lookup_of_entry hwf hl
            (Or.inr ⟨_, rfl⟩) hv
          have hjoin : joinPath (k :: q :: qs) = k ++ sep :: joinPath (q :: qs) := rfl
          rw [hjoin, mkKey_append]
          exact hmain

/-! ### The traversal loop follows a path that names a node -/

theorem getPath_nodeAtM {rest : List Str} {c : List (Str × LanguageStringObject)}
    {k : Str} {s : Str} (hn : nodeAtM c (k :: rest) = some (Direct s)) :
    Language.getPath (hmLookup c k) rest = some s := by
  induction rest generalizing c k with
  | nil =>
    rw [nodeAtM_one] at hn
    rw [hn, Language.getPath]
  | cons q qs ih =>
    cases hl : hmLookup c k with
    | none => rw [nodeAtM_cons, hl] at hn; exact Option.noConfusion hn
    | some o =>
      cases o with
      | Direct s2 => rw [nodeAtM_cons, hl] at hn; exact Option.noConfusion hn
      | Category c2 =>
        rw [nodeAtM_cons, hl] at hn
        rw [Language.getPath]
        exact ih hn

theorem nodeAtM_segments_sepFree {P : List Str}
    {c : List (Str × LanguageStringObject)} {o : LanguageStringObject}
    (hwf : wfMap c = true) (hn : nodeAtM c P = some o) : ∀ p ∈ P, sep ∉ p := by
  induction P generalizing c o with
  | nil => simp [nodeAtM] at hn
  | cons k ps ih =>
    cases ps with
    | nil =>
      rw [nodeAtM_one] at hn
      intro p hp
      rcases List.mem_cons.1 hp with rfl | hps
      · exact wf_mem_sepFree hwf (hmLookup_mem hn)
      · simp at hps
    | cons q qs =>
      cases hl : hmLookup c k with
      | none => rw [nodeAtM_cons, hl] at hn; exact Option.noConfusion hn
      | some o2 =>
        cases o2 with
        | Direct s2 => rw [nodeAtM_cons, hl] at hn; exact Option.noConfusion hn
        | Category c2 =>
          rw [nodeAtM_cons, hl] at hn
          intro p hp
          rcases List.mem_cons.1 hp with rfl | hps
          · exact wf_mem_sepFree hwf (hmLookup_mem hl)
          · have hwf2 : wfMap c2 = true := by
              simpa [wfObj] using wf_lookup_obj hwf hl
            exact ih hwf2 hn p hps

/-- The traversal loop short-circuits on a leaf: if the path names a leaf
after `k :: pre` and further segments `post` remain, the loop still
returns the leaf's value. -/
theorem getPath_leaf_shortCircuit {pre : List Str}
    {c : List (Str × LanguageStringObject)} {k : Str} {post : List Str} {s : Str}
    (hn : nodeAtM c (k :: pre) = some (Direct s)) (hpost : post ≠ []) :
    Language.getPath (hmLookup c k) (pre ++ post) = some s := by
  induction pre generalizing c k with
  | nil =>
    rw [nodeAtM_one] at hn
    rw [List.nil_append, hn]
    cases post with
    | nil => exact absurd rfl hpost
    | cons a as => rw [Language.getPath]
  | cons q qs ih =>
    cases hl : hmLookup c k with
    | none => rw [nodeAtM_cons, hl] at hn; exact Option.noConfusion hn
    | some o =>
      cases o with
      | Direct s2 => rw [nodeAtM_cons, hl] at hn; exact Option.noConfusion hn
      | Category c2 =>
        rw [nodeAtM_cons, hl] at hn
        rw [List.cons_append, Language.getPath]
        exact ih hn

/-! ### The claims -/

/-- C1 (amended): when the separator-split path of a lookup key reaches a
`Direct` leaf before all path segments are consumed, `Language.get`
terminates the traversal, ignores the remaining segments, and returns the
leaf's value (`some`), not a miss. (The claim as stated — that the result
is a miss — is refuted by `C1_counterexample`.) -/
theorem C1_leaf_before_end_returns_leaf (l : Language) (key : Str)
    (pre post : List Str) (s : Str) (hsplit : splitSep key = pre ++ post)
    (hpost : post ≠ []) (hn : nodeAtM l.strings pre = some (Direct s)) :
    l.get key = some s := by
  cases pre with
  | nil => rw [nodeAtM_nil] at hn; exact Option.noConfusion hn
  | cons p0 pre2 =>
    rw [List.cons_append] at hsplit
    simp only [Language.get, hsplit]
    exact getPath_leaf_shortCircuit hn hpost

/-- C1 witness: in a table whose path `category\category2\foo` names a
leaf, looking up the longer key `category\category2\foo\extra` returns the
leaf's value. -/
theorem C1_witness :
    exLangEn.get "category\\category2\\foo\\extra".data = some "bar".data :=
  C1_leaf_before_end_returns_leaf exLangEn "category\\category2\\foo\\extra".data
    ["category".data, "category2".data, "foo".data] ["extra".data] "bar".data
    (by decide) (by decide) rfl

/-- C1 counterexample: with top-level `tree` a leaf valued `arbre`, the key
`tree\extra` does not miss — it returns `arbre`, contradicting the claim
that `Language.get` returns `None` in this situation. -/
theorem C1_counterexample :
    exLangFr.get "tree\\extra".data = some "arbre".data ∧
      exLangFr.get "tree\\extra".data ≠ none := by
  exact ⟨rfl, by decide⟩

/-- C2: `LanguageSet.get` resolves in two tiers — it returns the current
language's value whenever the current language resolves and contains the
key (so a differing fallback value is never returned then); the fallback's
value is consulted only when the whole current tier misses; and the result
is a miss exactly when both tiers miss. -/
theorem C2_two_tier_resolution (s : LanguageSet) (k : Str) :
    (∀ l v, s.current_language = some l → l.get k = some v → s.get k = some v) ∧
    (s.current_language.bind (fun l => l.get k) = none →
      ∀ l v, s.fallback_language = some l → l.get k = some v → s.get k = some v) ∧
    (s.get k = none ↔
      s.current_language.bind (fun l => l.get k) = none ∧
      s.fallback_language.bind (fun l => l.get k) = none) := by
  refine ⟨?_, ?_, ?_⟩
  · intro l v hc hv
    simp [LanguageSet.get, hc, hv]
  · intro hmiss l v hf hv
    simp [LanguageSet.get, hmiss, hf, hv]
  · constructor
    · intro h
      cases hc : s.current_language.bind (fun l => l.get k) with
      | some v => simp [LanguageSet.get, hc] at h
      | none =>
        simp [LanguageSet.get, hc] at h
        refine ⟨rfl, ?_⟩
        cases hf : s.fallback_language with
        | none => rfl
        | some a => exact h a hf
    · rintro ⟨h1, h2⟩
      simp [LanguageSet.get, h1, h2]

/-- C2 witness: with current French (`tree ↦ arbre`) and fallback English,
`get "tree"` returns the current tier's value and
`get "category\category2\foo"` (absent from French) falls back to the
English value. -/
theorem C2_witness :
    exSet.get "tree".data = some "arbre".data ∧
      exSet.get "category\\category2\\foo".data = some "bar".data := by
  constructor
  · exact (C2_two_tier_resolution exSet "tree".data).1 exLangFr "arbre".data rfl rfl
  · exact (C2_two_tier_resolution exSet "category\\category2\\foo".data).2.1 rfl
      exLangEn "bar".data rfl rfl

/-- C3: for a well-formed table and a path `P` naming an existing leaf,
flattening with `flatten_all` (no root prefix) and looking up the joined
flat key yields the same string as running `get` on the joined path. -/
theorem C3_flatten_lookup_eq_get (l : Language) (P : List Str) (s : Str)
    (hwf : wfMap l.strings = true) (hn : nodeAtM l.strings P = some (Direct s)) :
    hmLookup l.strings_flat (joinPath P) = some s ∧
      l.get (joinPath P) = some s := by
  have hflat : hmLookup (flatten_all l.strings none) (mkKey none (joinPath P)) =
      some s := flatten_all_lookup_joinPath hwf hn
  have hsegs : ∀ p ∈ P, sep ∉ p := nodeAtM_segments_sepFree hwf hn
  have hne : P ≠ [] := by
    intro h
    rw [h, nodeAtM_nil] at hn
    exact Option.noConfusion hn
  constructor
  · exact hflat
  · cases P with
    | nil => exact absurd rfl hne
    | cons p ps =>
      have hsplit : splitSep (joinPath (p :: ps)) = p :: ps :=
        splitSep_joinPath _ hne hsegs
      simp only [Language.get, hsplit]
      exact getPath_nodeAtM hn

/-- C3 witness: in the English-like table the path
`category\category2\foo` names the leaf `bar`; both the flattened lookup
and `get` return it. -/
theorem C3_witness :
    hmLookup exLangEn.strings_flat
        (joinPath ["category".data, "category2".data, "foo".data]) =
      some "bar".data ∧
    exLangEn.get (joinPath ["category".data, "category2".data, "foo".data]) =
      some "bar".data :=
  C3_flatten_lookup_eq_get exLangEn ["category".data, "category2".data, "foo".data]
    "bar".data (by simp [exLangEn, wfMap, sep]) rfl

/-- C4: `verify` maps every registered language code to the set difference
of that language's flattened keys minus the fallback language's flattened
keys; when the fallback code resolves to no registered language the report
is empty. (`verify` is a total function of the model, so it never
fails.) -/
theorem C4_verify_reports_difference (s : LanguageSet) :
    (s.fallback_language = none → s.verify = []) ∧
    (∀ fb, s.fallback_language = some fb →
      ∀ c lang, hmLookup s.languages c = some lang →
        ∃ d, hmLookup s.verify c = some d ∧
          ∀ x, x ∈ d ↔ (x ∈ lang.strings_flat.map Prod.fst ∧
            x ∉ fb.strings_flat.map Prod.fst)) := by
  constructor
  · intro h
    rw [LanguageSet.verify, h]
  · intro fb hfb c lang hl
    rw [LanguageSet.verify, hfb]
    refine ⟨LanguageSet.diffNotIn (fb.strings_flat.map Prod.fst) lang, ?_, ?_⟩
    · rw [hmLookup_map_snd, hl]
      rfl
    · intro x
      rw [LanguageSet.diffNotIn, List.mem_filter]
      simp

/-- C4 witness: a registry whose fallback code is unregistered yields an
empty report, and in `exSet` (fallback English) the report row for `fr`
is exactly the French keys absent from the English flattened key set. -/
theorem C4_witness :
    exSetNoFallback.verify = [] ∧
    ∃ d, hmLookup exSet.verify "fr".data = some d ∧
      ∀ x, x ∈ d ↔ (x ∈ exLangFr.strings_flat.map Prod.fst ∧
        x ∉ exLangEn.strings_flat.map Prod.fst) := by
  constructor
  · exact (C4_verify_reports_difference exSetNoFallback).1 rfl
  · exact (C4_verify_reports_difference exSet).2 exLangEn rfl "fr".data exLangFr rfl

/-- C5: `set_language` and `set_fallback_language` succeed (return `true`
and write the code into their field) exactly when the code is a registered
short code, and on an unknown code they return `false` leaving the state
unchanged. -/
theorem C5_setters_iff_registered (s : LanguageSet) (code : Str) :
    ((s.set_language code).1 = true ↔ containsKey s.languages code = true) ∧
    ((s.set_fallback_language code).1 = true ↔
      containsKey s.languages code = true) ∧
    (containsKey s.languages code = true →
      s.set_language code = (true, { s with current := code }) ∧
      s.set_fallback_language code = (true, { s with fallback := code })) ∧
    (containsKey s.languages code = false →
      s.set_language code = (false, s) ∧
      s.set_fallback_language code = (false, s)) := by
  by_cases h : containsKey s.languages code
  · simp [LanguageSet.set_language, LanguageSet.set_fallback_language, h]
  · simp [LanguageSet.set_language, LanguageSet.set_fallback_language, h]

/-- C5 witness: on `exSet`, setting the current language to the known code
`en` succeeds and writes it, while the unknown code `zz` fails leaving the
registry unchanged. -/
theorem C5_witness :
    exSet.set_language "en".data = (true, { exSet with current := "en".data }) ∧
    exSet.set_language "zz".data = (false, exSet) := by
  constructor
  · exact ((C5_setters_iff_registered exSet "en".data).2.2.1 (by decide)).1
  · exact ((C5_setters_iff_registered exSet "zz".data).2.2.2 (by decide)).1

/-- C6 (amended): `Language.get` with the empty-string key does not take an
empty-path branch — Rust `split` yields the single empty segment — so the
empty string is looked up as a top-level key: the result is that key's
leaf value when the table binds the empty string to a leaf, and a miss
otherwise (in particular, a miss for every language whose top-level table
has no empty-string key). The claim as stated — a miss for every
language — is refuted by `C6_counterexample`. -/
theorem C6_empty_key_single_segment (l : Language) :
    l.get [] =
      match hmLookup l.strings [] with
      | some (Direct s) => some s
      | _ => none := by
  show Language.getPath (hmLookup l.strings []) [] = _
  cases hl : hmLookup l.strings [] with
  | none => rfl
  | some o => cases o <;> rfl

/-- C6 counterexample: a language whose top-level table binds the
empty-string key to a leaf returns that leaf on the empty key, not a
miss. -/
theorem C6_counterexample :
    exLangEmptyKey.get [] = some "x".data ∧ exLangEmptyKey.get [] ≠ none := by
  exact ⟨rfl, by decide⟩

/-- C7: the constructed registry has current = fallback = the given code,
and its languages mapping indexes the given list by short code with later
duplicates overwriting earlier ones (lookup returns the last language
carrying the code). -/
theorem C7_new_indexes_by_code (fb : Str) (langs : List Language) :
    (LanguageSet.new fb langs).current = fb ∧
    (LanguageSet.new fb langs).fallback = fb ∧
    ∀ c, hmLookup (LanguageSet.new fb langs).languages c = lastWithCode langs c := by
  refine ⟨rfl, rfl, ?_⟩
  intro c
  show hmLookup (langs.foldl (fun m l => hmInsert l.short_name l m) []) c = _
  rw [hmLookup_foldl_insert]
  cases lastWithCode langs c with
  | some r => rfl
  | none => rfl

/-- C8: indexing the registry returns `get`'s value on a hit and the empty
string on a miss; it is a total function of the model, so it never
fails. -/
theorem C8_index_get (s : LanguageSet) (k : Str) :
    (∀ v, s.get k = some v → s.index k = v) ∧
    (s.get k = none → s.index k = []) := by
  constructor
  · intro v h
    rw [LanguageSet.index, h]
    rfl
  · intro h
    rw [LanguageSet.index, h]
    rfl

/-- C8 witness: `exSet["tree"]` is the hit value `arbre` and indexing with
the absent key `nope` gives the empty string. -/
theorem C8_witness :
    exSet.index "tree".data = "arbre".data ∧ exSet.index "nope".data = [] := by
  exact ⟨(C8_index_get exSet "tree".data).1 "arbre".data rfl,
    (C8_index_get exSet "nope".data).2 rfl⟩

/-- C9: `set_language` touches at most the `current` field and
`set_fallback_language` at most the `fallback` field — the other field and
the languages mapping are unchanged whether the call succeeds or fails. -/
theorem C9_setters_frame (s : LanguageSet) (code : Str) :
    (s.set_language code).2.fallback = s.fallback ∧
    (s.set_language code).2.languages = s.languages ∧
    (s.set_fallback_language code).2.current = s.current ∧
    (s.set_fallback_language code).2.languages = s.languages := by
  by_cases h : containsKey s.languages code <;>
    simp [LanguageSet.set_language, LanguageSet.set_fallback_language, h]

/-- C10 (amended): in a well-formed table (distinct keys, no separator
inside a key) binding `K` to an empty branch at top level, the flattened
view contains no flat key equal to `K` nor one extending `K` with the
separator, and `get K` misses — a branch is never itself a string result.
Without the separator-free proviso the claim fails, see
`C10_counterexample`. -/
theorem C10_empty_branch_invisible (l : Language) (K : Str)
    (hwf : wfMap l.strings = true)
    (hK : hmLookup l.strings K = some (Category [])) :
    (∀ fk ∈ l.strings_flat.map Prod.fst,
      fk ≠ K ∧ ¬ ∃ t, fk = K ++ sep :: t) ∧
    l.get K = none := by
  have hKsep : sep ∉ K := wf_mem_sepFree hwf (hmLookup_mem hK)
  constructor
  · intro fk hfk
    obtain ⟨k, o, hmem, hbr⟩ :=
      flatten_all_entry (c := l.strings) hfk
    by_cases hk : k = K
    · subst hk
      obtain rfl : o = Category [] := by
        have hlk := wf_mem_lookup hwf hmem
        rw [hlk] at hK
        simpa using hK
      rw [flatten] at hbr
      simp [flatten_all] at hbr
    · have hksep : sep ∉ k := wf_mem_sepFree hwf hmem
      obtain ⟨u, hu, rfl⟩ := flatten_keyShape hbr
      constructor
      · intro he
        refine hk (seg_eq hksep hKsep hu (Or.inl rfl) ?_)
        rw [List.append_nil]
        exact he
      · rintro ⟨t, ht⟩
        exact hk (seg_eq hksep hKsep hu (Or.inr ⟨t, rfl⟩) ht)
  · have hsplit : splitSep K = [K] := splitSep_sepFree K hKsep
    simp only [Language.get, hsplit]
    rw [hK]
    rfl

/-- C10 witness: with `a` bound to an empty branch in a separator-free
table, no flattened key is `a` or starts with `a\`, and `get "a"`
misses. -/
theorem C10_witness :
    (∀ fk ∈ exLangEmptyBranch.strings_flat.map Prod.fst,
      fk ≠ "a".data ∧ ¬ ∃ t, fk = "a".data ++ sep :: t) ∧
    exLangEmptyBranch.get "a".data = none :=
  C10_empty_branch_invisible exLangEmptyBranch "a".data
    (by simp [exLangEmptyBranch, wfMap, sep]) rfl

/-- C10 counterexample: the claim as stated fails for a table whose
top-level key `a\b` (a key containing the separator) is an empty branch:
the flat key `a\b` still appears in the flattened view (coming from the
nested path `a` then `b`) and `get "a\b"` hits the nested leaf. -/
theorem C10_counterexample :
    hmLookup exLangSepKey.strings "a\\b".data = some (Category []) ∧
    "a\\b".data ∈ exLangSepKey.strings_flat.map Prod.fst ∧
    exLangSepKey.get "a\\b".data = some "x".data := by
  refine ⟨rfl, ?_, rfl⟩
  simp [exLangSepKey, Language.strings_flat, flatten_all, mkKey, sep]

end EmbeddedLang
